import Mathlib

/-!
Shallow embedding of the aarwyn-chain core (src/merkle_trie.rs and
src/block.rs), with theorems checking the natural-language specification
against the code.

Modelling conventions:
* Byte buffers (`Vec<u8>`, `&[u8]`) are `List Nat`.
* The SHA-256 provider (`MerkleTree::hash`, built on the `sha2` crate) is an
  external collaborator injected as a pure function `Bytes → Bytes`; every
  operation takes it as an explicit parameter `h : HashFn`.  All theorems
  quantify over `h`, so they hold in particular for the real SHA-256.
* Panicking control flow (the explicit panic in `MerkleTree::new`, the bounds
  panic in `generate_proof`, and the `todo` macro ending `generate_proof`)
  is modelled with `Except RPanic`.
* The unbounded `loop` in `Block::mine` is modelled with explicit fuel
  counting the number of hash computations the loop is allowed; `none` means
  the loop has not yet finished within that budget.
* `u32`/`u64` fields are `Nat`; their little-endian serializations take the
  value modulo 2^32 / 2^64 exactly as `to_le_bytes` does.
-/

/-- A byte buffer: `Vec<u8>` / `&[u8]` in the source. -/
abbrev Bytes := List Nat

/-- The injected hash-function provider (SHA-256 in the source). -/
abbrev HashFn := Bytes → Bytes

/-- The panic outcomes reachable in the two source files:
the explicit empty-input panic in `MerkleTree::new`, the leaf-index bounds
panic in `MerkleTree::generate_proof`, and the unimplemented-todo panic that
ends the body of `MerkleTree::generate_proof`. -/
inductive RPanic where
  | emptyInput
  | indexOutOfBounds
  | todoUnimplemented
deriving DecidableEq

/-- `struct MerkleTree`: root hash, all node hashes flattened in level order
(the constructor stores `nodes.into_iter().flatten().collect()`), and the
number of leaves. -/
structure MerkleTree where
  root : Bytes
  nodes : List Bytes
  leaf_count : Nat
deriving DecidableEq

/-- One iteration of the level-building `while` loop in `MerkleTree::new`:
walk the current level two nodes at a time (`step_by(2)`); a complete pair is
replaced by the hash of the concatenation of its two digests, and an unpaired
final node (odd level length) is promoted unchanged. -/
def nextLevel (h : HashFn) : List Bytes → List Bytes
  | [] => []
  | [x] => [x]
  | x :: y :: rest => h (x ++ y) :: nextLevel h rest

/-- The level-building `while` loop of `MerkleTree::new`, with explicit fuel
bounding the number of iterations.  Each iteration strictly shrinks a level of
length ≥ 2, so fuel `l.length` always suffices (see `buildLevelsFuel_last_len`). -/
def buildLevelsFuel (h : HashFn) : Nat → List Bytes → List (List Bytes)
  | 0, l => [l]
  | fuel + 1, l => if l.length ≤ 1 then [l] else l :: buildLevelsFuel h fuel (nextLevel h l)

/-- All levels of the tree, level 0 (the leaf digests) first, built by the
`while` loop in `MerkleTree::new`. -/
def buildLevels (h : HashFn) (l : List Bytes) : List (List Bytes) :=
  buildLevelsFuel h l.length l

/-- `MerkleTree::new`: reject empty input, hash every record to form level 0,
run the level-building loop, take the first entry of the last level as root,
and store the levels flattened. -/
def MerkleTree.new (h : HashFn) (data : List Bytes) : Except RPanic MerkleTree :=
  if data.isEmpty then .error .emptyInput
  else
    let current_level := data.map h
    let levels := buildLevels h current_level
    .ok { root := (levels.getLastD []).headD []
        , nodes := levels.flatten
        , leaf_count := current_level.length }

/-- `MerkleTree::root_hash`: pure accessor for the stored root. -/
def MerkleTree.root_hash (t : MerkleTree) : Bytes := t.root

/-- `struct MerkleProof`: sibling steps (digest, is-right-sibling flag), the
claimed leaf digest, and the claimed root digest. -/
structure MerkleProof where
  proof : List (Bytes × Bool)
  leaf_hash : Bytes
  root_hash : Bytes
deriving DecidableEq

/-- The sibling-collection `for` loop in `MerkleTree::generate_proof`.  Note
that in the source `self.nodes` is the FLATTENED digest list, so `level` here
ranges over individual digests, `level_nodes` is a single 32-byte digest, and
each pushed "sibling" is one byte of it; this mirrors the source exactly. -/
def siblingSteps (nodes : List Bytes) (leaf_index : Nat) : List (Nat × Bool) :=
  ((List.range (nodes.length - 1)).foldl
    (fun (st : Nat × List (Nat × Bool)) level =>
      let index := st.1
      let level_nodes := nodes.getD level []
      let is_right := index % 2 == 1
      let sibling_idx := if is_right then index - 1 else index + 1
      let acc := if sibling_idx < level_nodes.length
                 then st.2 ++ [(level_nodes.getD sibling_idx 0, is_right)]
                 else st.2
      (index / 2, acc))
    (leaf_index, ([] : List (Nat × Bool)))).2

/-- `MerkleTree::generate_proof`: bounds-check the leaf index, run the
sibling-collection loop, then hit the unimplemented-todo macro that ends the
body (the `MerkleProof` construction is commented out in the source). -/
def MerkleTree.generate_proof (t : MerkleTree) (leaf_index : Nat) :
    Except RPanic MerkleProof :=
  if leaf_index ≥ t.leaf_count then .error .indexOutOfBounds
  else
    let _ := siblingSteps t.nodes leaf_index
    .error .todoUnimplemented

/-- The replay loop of `MerkleProof::verify`: fold the sibling steps over the
running digest, concatenating (current ++ sibling) when the sibling is on the
right and (sibling ++ current) otherwise, hashing each concatenation. -/
def verifyFold (h : HashFn) (start : Bytes) (steps : List (Bytes × Bool)) : Bytes :=
  steps.foldl
    (fun current_hash step =>
      if step.2 then h (current_hash ++ step.1) else h (step.1 ++ current_hash))
    start

/-- `MerkleProof::verify`: recompute the leaf digest, return false at once if
it differs from the stored leaf hash, otherwise replay the proof and compare
with the stored root hash. -/
def MerkleProof.verify (h : HashFn) (p : MerkleProof) (data : Bytes) : Bool :=
  let leaf_hash := h data
  if leaf_hash ≠ p.leaf_hash then false
  else verifyFold h leaf_hash p.proof == p.root_hash

/-- `struct BlockHeader` (the timestamp field is commented out in the source):
`version : u32`, previous block hash, merkle root, `nonce : u64`. -/
structure BlockHeader where
  version : Nat
  prev_block_hash : Bytes
  merkle_root : Bytes
  nonce : Nat
deriving DecidableEq

/-- `struct Block`: header, transaction batch, and the tree built over it. -/
structure Block where
  header : BlockHeader
  transactions : List Bytes
  merkle_tree : MerkleTree
deriving DecidableEq

/-- `Block::new`: build the tree over the transactions (propagating the
empty-input panic), then initialize the header with version 1, the given
previous hash, the tree root, and nonce 0. -/
def Block.new (h : HashFn) (transactions : List Bytes) (prev_block_hash : Bytes) :
    Except RPanic Block :=
  (MerkleTree.new h transactions).map fun merkle_tree =>
    { header := { version := 1
                , prev_block_hash := prev_block_hash
                , merkle_root := merkle_tree.root_hash
                , nonce := 0 }
    , transactions := transactions
    , merkle_tree := merkle_tree }

/-- `n.to_le_bytes()` for a `w`-byte integer: `w` bytes, least significant
first; values ≥ 2^(8w) are truncated exactly as fixed-width arithmetic does. -/
def leBytes : Nat → Nat → Bytes
  | 0, _ => []
  | w + 1, n => n % 256 :: leBytes w (n / 256)

/-- `Block::serialize_header`: version (4 little-endian bytes), previous block
hash, merkle root, nonce (8 little-endian bytes), concatenated in that order
(the timestamp line is commented out in the source). -/
def Block.serialize_header (b : Block) : Bytes :=
  leBytes 4 b.header.version ++ b.header.prev_block_hash
    ++ b.header.merkle_root ++ leBytes 8 b.header.nonce

/-- `Block::hash`: hash of the serialized header. -/
def Block.hash (h : HashFn) (b : Block) : Bytes :=
  h b.serialize_header

/-- The `mask` computed at the top of `Block::mine`:
`0xff >> (difficulty % 8)` when `difficulty % 8 > 0`, else `0`. -/
def mineMask (difficulty : Nat) : Nat :=
  if difficulty % 8 > 0 then 0xff >>> (difficulty % 8) else 0

/-- The acceptance test inside `Block::mine`'s loop: the first
`difficulty / 8` bytes of the hash are all zero, and either `difficulty % 8`
is zero or the byte at index `difficulty / 8` is zero under the complemented
mask (`byte & !mask == 0`; on bytes, `!mask` is `0xff ^^^ mask`).  The
source's direct indexing is modelled with `getD _ 0`. -/
def meets_difficulty (hash : Bytes) (difficulty : Nat) : Bool :=
  (hash.take (difficulty / 8)).all (· == 0) &&
    (difficulty % 8 == 0
      || (hash.getD (difficulty / 8) 0) &&& (0xff ^^^ mineMask difficulty) == 0)

/-- The nonce increment at the bottom of `Block::mine`'s loop. -/
def incNonce (b : Block) : Block :=
  { b with header := { b.header with nonce := b.header.nonce + 1 } }

/-- `Block::mine` with explicit fuel: each unit of fuel allows one hash
computation; the loop accepts as soon as the current hash meets the
difficulty, otherwise increments the nonce and retries. -/
def Block.mine (h : HashFn) (b : Block) (difficulty : Nat) : Nat → Option Block
  | 0 => none
  | fuel + 1 =>
    if meets_difficulty (Block.hash h b) difficulty then some b
    else Block.mine h (incNonce b) difficulty fuel

/-- Helper used only in theorem statements: `b` with its nonce advanced by
`k` (the state after `k` failed iterations of the mining loop). -/
def nonceAdd (b : Block) (k : Nat) : Block :=
  { b with header := { b.header with nonce := b.header.nonce + k } }

/-- Helper used only in theorem statements: `b` with its nonce replaced. -/
def setNonce (b : Block) (n : Nat) : Block :=
  { b with header := { b.header with nonce := n } }

/-- The level structure `MerkleTree::new` computes over `data`: level 0 is the
list of record digests, later levels come from the level-building loop. -/
def treeLevels (h : HashFn) (data : List Bytes) : List (List Bytes) :=
  buildLevels h (data.map h)

/-- A concrete hash function used by the witness theorems below. -/
def hLen : HashFn := fun x => [x.length % 256]

/-- A concrete block used by the witness theorems below. -/
def sampleBlock : Block :=
  { header := { version := 1, prev_block_hash := [9, 9], merkle_root := [2], nonce := 0 }
  , transactions := [[1], [2]]
  , merkle_tree := { root := [2], nodes := [[1], [1], [2]], leaf_count := 2 } }

/-! ## Helper lemmas about the level-building loop -/

/-- One loop iteration rounds the level length up to half. -/
theorem nextLevel_length (h : HashFn) :
    ∀ l : List Bytes, (nextLevel h l).length = (l.length + 1) / 2
  | [] => by simp [nextLevel]
  | [_] => by simp [nextLevel]
  | _ :: _ :: rest => by
    simp only [nextLevel, List.length_cons, nextLevel_length h rest]
    omega

/-- A nonempty level stays nonempty under one loop iteration. -/
theorem nextLevel_ne_nil (h : HashFn) (l : List Bytes) (hl : l ≠ []) :
    nextLevel h l ≠ [] := by
  rw [← List.length_pos, nextLevel_length]
  have : 0 < l.length := List.length_pos.mpr hl
  omega

/-- The level list always starts with the input level. -/
theorem buildLevelsFuel_cons (h : HashFn) (fuel : Nat) (l : List Bytes) :
    ∃ rest, buildLevelsFuel h fuel l = l :: rest := by
  cases fuel with
  | zero => exact ⟨[], rfl⟩
  | succ f =>
    by_cases hl : l.length ≤ 1
    · exact ⟨[], by simp [buildLevelsFuel, hl]⟩
    · exact ⟨buildLevelsFuel h f (nextLevel h l), by simp [buildLevelsFuel, hl]⟩

/-- Every stored level is one loop iteration past the previous one. -/
theorem buildLevelsFuel_chain (h : HashFn) :
    ∀ (fuel : Nat) (l : List Bytes) (k : Nat),
      k + 1 < (buildLevelsFuel h fuel l).length →
      (buildLevelsFuel h fuel l).getD (k + 1) [] =
        nextLevel h ((buildLevelsFuel h fuel l).getD k [])
  | 0, l, k => by
    intro hk
    simp [buildLevelsFuel] at hk
  | fuel + 1, l, k => by
    intro hk
    by_cases hl : l.length ≤ 1
    · simp [buildLevelsFuel, hl] at hk
    · simp only [buildLevelsFuel, if_neg hl] at hk ⊢
      cases k with
      | zero =>
        obtain ⟨rest, hr⟩ := buildLevelsFuel_cons h fuel (nextLevel h l)
        simp [hr]
      | succ k' =>
        have hk' : k' + 1 < (buildLevelsFuel h fuel (nextLevel h l)).length := by
          simpa using hk
        simpa using buildLevelsFuel_chain h fuel (nextLevel h l) k' hk'

/-- The default value of `getLastD` is irrelevant on a nonempty list. -/
theorem getLastD_default_irrel {α : Type} :
    ∀ (l : List α) (d d' : α), l ≠ [] → l.getLastD d = l.getLastD d'
  | [], _, _, hne => absurd rfl hne
  | [_], _, _, _ => by simp
  | x :: y :: t, d, d', _ => by
    rw [List.getLastD_cons d x (y :: t), List.getLastD_cons d' x (y :: t)]

/-- `getLastD` skips the head of a two-or-more-element list. -/
theorem getLastD_cons_ne_nil {α : Type} (a d : α) (l : List α) (hl : l ≠ []) :
    (a :: l).getLastD d = l.getLastD d := by
  rw [List.getLastD_cons d a l]
  exact getLastD_default_irrel l a d hl

/-- With enough fuel (the loop needs at most `l.length` iterations, since a
level of length ≥ 2 strictly shrinks), the final stored level has length 1. -/
theorem buildLevelsFuel_last_len (h : HashFn) :
    ∀ (fuel : Nat) (l : List Bytes), l ≠ [] → l.length ≤ fuel + 1 →
      ((buildLevelsFuel h fuel l).getLastD []).length = 1
  | 0, l, hne, hlen => by
    have h1 : 0 < l.length := List.length_pos.mpr hne
    simp only [buildLevelsFuel]
    simp only [List.getLastD_cons, List.getLastD_nil]
    omega
  | fuel + 1, l, hne, hlen => by
    by_cases hl : l.length ≤ 1
    · have h1 : 0 < l.length := List.length_pos.mpr hne
      simp only [buildLevelsFuel, if_pos hl]
      simp only [List.getLastD_cons, List.getLastD_nil]
      omega
    · have h1 : 0 < l.length := List.length_pos.mpr hne
      have hnl := nextLevel_length h l
      have hnext_ne : nextLevel h l ≠ [] := nextLevel_ne_nil h l hne
      have ih := buildLevelsFuel_last_len h fuel (nextLevel h l) hnext_ne (by omega)
      obtain ⟨rest, hr⟩ := buildLevelsFuel_cons h fuel (nextLevel h l)
      simp only [buildLevelsFuel, if_neg hl]
      rw [getLastD_cons_ne_nil _ _ _ (by rw [hr]; simp)]
      exact ih

/-- Every level the loop stores is nonempty (given nonempty input). -/
theorem buildLevelsFuel_mem_ne_nil (h : HashFn) :
    ∀ (fuel : Nat) (l : List Bytes), l ≠ [] →
      ∀ lv ∈ buildLevelsFuel h fuel l, lv ≠ []
  | 0, l, hne, lv, hlv => by
    simp only [buildLevelsFuel, List.mem_singleton] at hlv
    exact hlv ▸ hne
  | fuel + 1, l, hne, lv, hlv => by
    by_cases hl : l.length ≤ 1
    · simp only [buildLevelsFuel, if_pos hl, List.mem_singleton] at hlv
      exact hlv ▸ hne
    · simp only [buildLevelsFuel, if_neg hl, List.mem_cons] at hlv
      rcases hlv with rfl | hlv
      · exact hne
      · exact buildLevelsFuel_mem_ne_nil h fuel (nextLevel h l)
          (nextLevel_ne_nil h l hne) lv hlv

/-- A list of nonempty lists has at least as many flattened elements as
lists. -/
theorem length_le_flatten_length {α : Type} :
    ∀ LL : List (List α), (∀ lv ∈ LL, lv ≠ []) → LL.length ≤ LL.flatten.length
  | [], _ => by simp
  | lv :: rest, hall => by
    have h1 : 0 < lv.length :=
      List.length_pos.mpr (hall lv (by simp))
    have h2 := length_le_flatten_length rest (fun x hx => hall x (by simp [hx]))
    simp only [List.flatten_cons, List.length_cons, List.length_append]
    omega

/-- The successful branch of `MerkleTree::new`, with its stored fields. -/
theorem merkle_new_eq_ok (h : HashFn) (data : List Bytes) (hne : data ≠ []) :
    MerkleTree.new h data = .ok
      { root := ((buildLevels h (data.map h)).getLastD []).headD []
      , nodes := (buildLevels h (data.map h)).flatten
      , leaf_count := data.length } := by
  have hemp : data.isEmpty = false := by simp [List.isEmpty_iff, hne]
  simp [MerkleTree.new, hemp]


/-! ## Claim theorems: Merkle tree construction and proof generation -/

/-- Claim C2: for every non-empty record batch, construction hashes each
record to form level 0 in input order; each next level is the pair-combine
step (hash of the concatenated consecutive pair, unpaired final node promoted
unchanged — that is exactly `nextLevel`); level k+1 has length
ceil(level k length / 2); the last level has length 1, and its single digest
is the root returned by `root_hash`. -/
theorem merkle_new_level_structure (h : HashFn) (data : List Bytes) (hne : data ≠ []) :
    ∃ t, MerkleTree.new h data = .ok t ∧
      (treeLevels h data).headD [] = data.map h ∧
      (∀ k, k + 1 < (treeLevels h data).length →
        (treeLevels h data).getD (k + 1) [] =
          nextLevel h ((treeLevels h data).getD k [])) ∧
      (∀ k, k + 1 < (treeLevels h data).length →
        ((treeLevels h data).getD (k + 1) []).length =
          (((treeLevels h data).getD k []).length + 1) / 2) ∧
      ((treeLevels h data).getLastD []).length = 1 ∧
      t.root_hash = ((treeLevels h data).getLastD []).headD [] := by
  have hmapne : data.map h ≠ [] := by simpa using hne
  refine ⟨_, merkle_new_eq_ok h data hne, ?_, ?_, ?_, ?_, rfl⟩
  · obtain ⟨rest, hr⟩ := buildLevelsFuel_cons h (data.map h).length (data.map h)
    have htl : treeLevels h data = data.map h :: rest := hr
    simp [htl]
  · intro k hk
    exact buildLevelsFuel_chain h (data.map h).length (data.map h) k hk
  · intro k hk
    have hch : (treeLevels h data).getD (k + 1) [] =
        nextLevel h ((treeLevels h data).getD k []) :=
      buildLevelsFuel_chain h (data.map h).length (data.map h) k hk
    rw [hch, nextLevel_length]
  · exact buildLevelsFuel_last_len h (data.map h).length (data.map h) hmapne
      (by omega)

/-- The successful branch of `Block::new`, with its initialized header. -/
theorem block_new_eq_ok (h : HashFn) (data : List Bytes) (prev : Bytes)
    (hne : data ≠ []) :
    Block.new h data prev = .ok
      { header := { version := 1
                  , prev_block_hash := prev
                  , merkle_root := ((buildLevels h (data.map h)).getLastD []).headD []
                  , nonce := 0 }
      , transactions := data
      , merkle_tree :=
          { root := ((buildLevels h (data.map h)).getLastD []).headD []
          , nodes := (buildLevels h (data.map h)).flatten
          , leaf_count := data.length } } := by
  simp only [Block.new, merkle_new_eq_ok h data hne, Except.map]
  rfl

/-- Claim C5: tree construction on the empty batch hits the empty-input
panic, block construction propagates the very same error, and both succeed on
every non-empty batch. -/
theorem empty_input_errors (h : HashFn) (prev : Bytes) (data : List Bytes)
    (hne : data ≠ []) :
    MerkleTree.new h [] = .error .emptyInput ∧
    Block.new h [] prev = .error .emptyInput ∧
    (∃ t, MerkleTree.new h data = .ok t) ∧
    (∃ b, Block.new h data prev = .ok b) :=
  ⟨rfl, rfl, ⟨_, merkle_new_eq_ok h data hne⟩,
    ⟨_, block_new_eq_ok h data prev hne⟩⟩

/-- Claim C1 (code bug): `GenerateProof(i).Verify(records[i])` cannot be true
for any input, because `generate_proof` ends at the source's unimplemented
todo macro instead of returning a proof.  Concretely, over a 4-record batch,
generating the proof for the valid index 0 produces the todo panic. -/
theorem generate_proof_todo_at_valid_index :
    (MerkleTree.new (fun x => [x.length % 256]) [[1], [2], [3], [4]] >>=
      fun t => t.generate_proof 0) = .error .todoUnimplemented := rfl

/-- Claim C4 (code bug): the out-of-range panic does fire exactly on
out-of-range indices (index 7 of a 4-leaf tree), but an in-range index (2)
does not return a `MerkleProof`: it hits the unimplemented todo panic. -/
theorem generate_proof_bounds_check :
    (MerkleTree.new (fun x => [x.length % 256]) [[1], [2], [3], [4]] >>=
      fun t => t.generate_proof 7) = .error .indexOutOfBounds ∧
    (MerkleTree.new (fun x => [x.length % 256]) [[1], [2], [3], [4]] >>=
      fun t => t.generate_proof 2) = .error .todoUnimplemented :=
  ⟨rfl, rfl⟩

/-- Claim C10: for every valid leaf index of every tree, `generate_proof`
ends in the unimplemented-todo panic and never returns a proof; moreover the
tree stores its nodes flattened (one entry per digest), so when there are at
least two leaves the sibling loop's iteration range `0..nodes.len()-1` is
strictly longer than the per-level walk (number of levels minus one) that the
specification describes. -/
theorem generate_proof_unimplemented (h : HashFn) (data : List Bytes) (i : Nat)
    (hne : data ≠ []) (hi : i < data.length) :
    (MerkleTree.new h data >>= fun t => t.generate_proof i) =
      .error .todoUnimplemented ∧
    ∀ t, MerkleTree.new h data = .ok t →
      t.nodes = (treeLevels h data).flatten ∧
      (2 ≤ data.length →
        (treeLevels h data).length - 1 < t.nodes.length - 1) := by
  have hnew := merkle_new_eq_ok h data hne
  have hmapne : data.map h ≠ [] := by simpa using hne
  constructor
  · rw [hnew]
    show MerkleTree.generate_proof _ i = _
    rw [MerkleTree.generate_proof, if_neg]
    simp only [ge_iff_le, not_le]
    exact hi
  · intro t ht
    rw [hnew] at ht
    cases ht
    refine ⟨rfl, fun h2 => ?_⟩
    obtain ⟨rest, hr⟩ := buildLevelsFuel_cons h (data.map h).length (data.map h)
    have htl : treeLevels h data = data.map h :: rest := hr
    have hmem := buildLevelsFuel_mem_ne_nil h (data.map h).length (data.map h) hmapne
    have hrest_ne : ∀ lv ∈ rest, lv ≠ [] := by
      intro lv hlv
      exact hmem lv (by rw [hr]; exact List.mem_cons_of_mem _ hlv)
    have h3 := length_le_flatten_length rest hrest_ne
    show (treeLevels h data).length - 1 < (treeLevels h data).flatten.length - 1
    rw [htl]
    simp only [List.flatten_cons, List.length_cons, List.length_append,
      List.length_map]
    omega

/-! ## Helper lemmas about the mining loop -/

/-- Advancing the nonce by zero is the identity. -/
theorem nonceAdd_zero (b : Block) : nonceAdd b 0 = b := by
  cases b with
  | mk header txs t => cases header; rfl

/-- One increment followed by `k` more advances is `k + 1` advances. -/
theorem nonceAdd_incNonce (b : Block) (k : Nat) :
    nonceAdd (incNonce b) k = nonceAdd b (k + 1) := by
  cases b with
  | mk header txs t =>
    cases header with
    | mk v p m n =>
      simp only [nonceAdd, incNonce]
      have : n + 1 + k = n + (k + 1) := by omega
      rw [this]

/-- Partial-correctness shape of the mining loop: a successful run returns
the starting block with its nonce advanced by the number of failed
iterations, each of which failed the difficulty test, and the returned
block's hash passes the test. -/
theorem mine_some_shape (h : HashFn) (d : Nat) :
    ∀ (fuel : Nat) (b b' : Block), Block.mine h b d fuel = some b' →
      meets_difficulty (Block.hash h b') d = true ∧
      ∃ k, b' = nonceAdd b k ∧
        ∀ j, j < k → meets_difficulty (Block.hash h (nonceAdd b j)) d = false
  | 0, b, b', hm => by simp [Block.mine] at hm
  | fuel + 1, b, b', hm => by
    cases hmd : meets_difficulty (Block.hash h b) d with
    | true =>
      simp only [Block.mine, hmd, if_true, Option.some.injEq] at hm
      subst hm
      exact ⟨hmd, 0, (nonceAdd_zero b).symm, fun j hj => absurd hj (by omega)⟩
    | false =>
      simp only [Block.mine, hmd, Bool.false_eq_true, if_false] at hm
      obtain ⟨hmeets, k, hb', hfail⟩ := mine_some_shape h d fuel (incNonce b) b' hm
      refine ⟨hmeets, k + 1, by rw [hb', nonceAdd_incNonce], ?_⟩
      intro j hj
      cases j with
      | zero => rw [nonceAdd_zero]; exact hmd
      | succ j' =>
        rw [← nonceAdd_incNonce]
        exact hfail j' (by omega)

/-! ## Claim theorems: mining, block hash, verification -/

/-- Claim C3: whenever the mining loop returns, the returned block's hash has
its first `difficulty / 8` bytes all zero and, when `difficulty % 8 ≠ 0`, the
byte at index `difficulty / 8` clear under the complement of
`0xff >> (difficulty % 8)`; and the accepted block was reached from the start
state by incrementing the nonce by exactly one per failed test. -/
theorem mine_meets_target (h : HashFn) (b b' : Block) (d fuel : Nat)
    (hm : Block.mine h b d fuel = some b') :
    ((Block.hash h b').take (d / 8)).all (· == 0) = true ∧
    (d % 8 ≠ 0 →
      (Block.hash h b').getD (d / 8) 0 &&& (0xff ^^^ (0xff >>> (d % 8))) = 0) ∧
    (∃ k, b' = nonceAdd b k ∧
      ∀ j, j < k → meets_difficulty (Block.hash h (nonceAdd b j)) d = false) := by
  obtain ⟨hmeets, hk⟩ := mine_some_shape h d fuel b b' hm
  rw [meets_difficulty, Bool.and_eq_true] at hmeets
  obtain ⟨h1, h2⟩ := hmeets
  refine ⟨h1, ?_, hk⟩
  intro hd8
  rw [Bool.or_eq_true] at h2
  rcases h2 with h2 | h2
  · exact absurd (by simpa using h2) hd8
  · have h3 : (Block.hash h b').getD (d / 8) 0 &&& (0xff ^^^ mineMask d) = 0 := by
      simpa using h2
    rwa [mineMask, if_pos (Nat.pos_of_ne_zero hd8)] at h3

/-- Claim C7: mining only ever touches the nonce — version, predecessor
hash, commitment root, transactions and the stored tree survive unchanged, so
the commitment-root invariant established by `Block::new` is preserved by
mining. -/
theorem mine_frame_invariant (h : HashFn) (b b' : Block) (d fuel : Nat)
    (hm : Block.mine h b d fuel = some b') :
    b'.header.version = b.header.version ∧
    b'.header.prev_block_hash = b.header.prev_block_hash ∧
    b'.header.merkle_root = b.header.merkle_root ∧
    b'.transactions = b.transactions ∧
    b'.merkle_tree = b.merkle_tree ∧
    (b.header.merkle_root = b.merkle_tree.root →
      b'.header.merkle_root = b'.merkle_tree.root) ∧
    (∀ txs prev b0, Block.new h txs prev = .ok b0 →
      b0.header.merkle_root = b0.merkle_tree.root) := by
  obtain ⟨-, k, hb', -⟩ := mine_some_shape h d fuel b b' hm
  subst hb'
  refine ⟨rfl, rfl, rfl, rfl, rfl, fun hi => hi, ?_⟩
  intro txs prev b0 h0
  cases htx : MerkleTree.new h txs with
  | error e => simp [Block.new, htx, Except.map] at h0
  | ok t =>
    simp only [Block.new, htx, Except.map, Except.ok.injEq] at h0
    subst h0
    rfl

/-- Claim C8: with difficulty 0 the acceptance test is vacuously true, so
mining accepts the very first hash it computes (a fuel budget of one hash
suffices) and returns the block unchanged — in particular with its nonce
unchanged — for every initial header state. -/
theorem mine_zero_difficulty (h : HashFn) (b : Block) (fuel : Nat) :
    Block.mine h b 0 (fuel + 1) = some b ∧
    Block.mine h b 0 1 = some b ∧
    meets_difficulty (Block.hash h b) 0 = true := by
  have hm : meets_difficulty (Block.hash h b) 0 = true := by
    simp [meets_difficulty]
  exact ⟨by simp [Block.mine, hm], by simp [Block.mine, hm], hm⟩

/-- Little-endian serialization is injective on values that fit the width. -/
theorem leBytes_inj : ∀ (w n n' : Nat), n < 2 ^ (8 * w) → n' < 2 ^ (8 * w) →
    leBytes w n = leBytes w n' → n = n'
  | 0, n, n', hn, hn', _ => by
    have h1 : (2 : Nat) ^ (8 * 0) = 1 := by norm_num
    omega
  | w + 1, n, n', hn, hn', he => by
    injection he with h1 h2
    have hsplit : (2 : Nat) ^ (8 * (w + 1)) = 2 ^ (8 * w) * 256 := by
      rw [show 8 * (w + 1) = 8 * w + 8 by ring, pow_add]
      norm_num
    have hdiv : n / 256 < 2 ^ (8 * w) := by
      rw [Nat.div_lt_iff_lt_mul (by norm_num : (0 : Nat) < 256)]
      omega
    have hdiv' : n' / 256 < 2 ^ (8 * w) := by
      rw [Nat.div_lt_iff_lt_mul (by norm_num : (0 : Nat) < 256)]
      omega
    have h3 := leBytes_inj w (n / 256) (n' / 256) hdiv hdiv' h2
    omega

/-- Claim C6: the block hash is the injected hash function applied to the
serialized header — version (4 little-endian bytes), predecessor hash,
commitment root, nonce (8 little-endian bytes), in that order; it is a pure
function of the header; and distinct in-range nonces always produce distinct
serialized headers, hence distinct hashes under any collision-free hash
function. -/
theorem block_hash_header_serialization (h : HashFn) (b : Block) :
    Block.hash h b = h (leBytes 4 b.header.version ++ b.header.prev_block_hash
      ++ b.header.merkle_root ++ leBytes 8 b.header.nonce) ∧
    (∀ b2 : Block, b2.header = b.header → Block.hash h b2 = Block.hash h b) ∧
    (∀ n n', n < 2 ^ 64 → n' < 2 ^ 64 → n ≠ n' →
      Block.serialize_header (setNonce b n) ≠
        Block.serialize_header (setNonce b n')) ∧
    (Function.Injective h → ∀ n n', n < 2 ^ 64 → n' < 2 ^ 64 → n ≠ n' →
      Block.hash h (setNonce b n) ≠ Block.hash h (setNonce b n')) := by
  have hser : ∀ n n', n < 2 ^ 64 → n' < 2 ^ 64 → n ≠ n' →
      Block.serialize_header (setNonce b n) ≠
        Block.serialize_header (setNonce b n') := by
    intro n n' hn hn' hne hcon
    apply hne
    simp only [Block.serialize_header, setNonce, List.append_assoc] at hcon
    have h1 := List.append_cancel_left hcon
    have h2 := List.append_cancel_left h1
    have h3 := List.append_cancel_left h2
    have h64 : (2 : Nat) ^ 64 = 2 ^ (8 * 8) := by norm_num
    exact leBytes_inj 8 n n' (h64 ▸ hn) (h64 ▸ hn') h3
  refine ⟨rfl, ?_, hser, ?_⟩
  · intro b2 hb2
    simp only [Block.hash, Block.serialize_header, hb2]
  · intro hinj n n' hn hn' hne hcon
    exact hser n n' hn hn' hne (hinj hcon)

/-- Claim C9: verification is a total boolean function of its inputs — its
value is exactly "the recomputed leaf digest matches the stored one AND the
replayed fold reaches the stored root" — and a leaf-digest mismatch yields
false outright, whatever the proof steps and stored root are. -/
theorem verify_never_panics (h : HashFn) (p : MerkleProof) (r : Bytes) :
    MerkleProof.verify h p r =
      ((h r == p.leaf_hash) && (verifyFold h (h r) p.proof == p.root_hash)) ∧
    (h r ≠ p.leaf_hash → MerkleProof.verify h p r = false) := by
  constructor
  · by_cases hl : h r = p.leaf_hash
    · simp [MerkleProof.verify, hl]
    · simp [MerkleProof.verify, hl]
  · intro hl
    simp [MerkleProof.verify, hl]

/-! ## Witnesses: each hypothesis-bearing claim theorem applied at a
concrete input -/

/-- Witness for `merkle_new_level_structure` at a concrete 3-record batch. -/
theorem merkle_new_level_structure_witness :
    ∃ t, MerkleTree.new hLen [[1], [2], [3]] = .ok t ∧
      (treeLevels hLen [[1], [2], [3]]).headD [] = [[1], [2], [3]].map hLen ∧
      (∀ k, k + 1 < (treeLevels hLen [[1], [2], [3]]).length →
        (treeLevels hLen [[1], [2], [3]]).getD (k + 1) [] =
          nextLevel hLen ((treeLevels hLen [[1], [2], [3]]).getD k [])) ∧
      (∀ k, k + 1 < (treeLevels hLen [[1], [2], [3]]).length →
        ((treeLevels hLen [[1], [2], [3]]).getD (k + 1) []).length =
          (((treeLevels hLen [[1], [2], [3]]).getD k []).length + 1) / 2) ∧
      ((treeLevels hLen [[1], [2], [3]]).getLastD []).length = 1 ∧
      t.root_hash = ((treeLevels hLen [[1], [2], [3]]).getLastD []).headD [] :=
  merkle_new_level_structure hLen [[1], [2], [3]] (by decide)

/-- Witness for `mine_meets_target`: difficulty 0 with one unit of fuel
accepts the sample block at once. -/
theorem mine_meets_target_witness :
    Block.mine hLen sampleBlock 0 1 = some sampleBlock ∧
    ((Block.hash hLen sampleBlock).take (0 / 8)).all (· == 0) = true :=
  ⟨rfl, (mine_meets_target hLen sampleBlock sampleBlock 0 1 rfl).1⟩

/-- Witness for `empty_input_errors` at a concrete non-empty batch. -/
theorem empty_input_errors_witness :
    MerkleTree.new hLen [] = .error .emptyInput ∧
    (∃ t, MerkleTree.new hLen [[7]] = .ok t) :=
  ⟨(empty_input_errors hLen [0] [[7]] (by decide)).1,
   (empty_input_errors hLen [0] [[7]] (by decide)).2.2.1⟩

/-- Witness for `block_hash_header_serialization`: under the injective
identity hash, nonces 0 and 1 give the sample block distinct hashes. -/
theorem block_hash_header_serialization_witness :
    Block.hash id (setNonce sampleBlock 0) ≠ Block.hash id (setNonce sampleBlock 1) :=
  (block_hash_header_serialization id sampleBlock).2.2.2 Function.injective_id 0 1
    (by norm_num) (by norm_num) (by norm_num)

/-- Witness for `mine_frame_invariant` on the sample block. -/
theorem mine_frame_invariant_witness :
    Block.mine hLen sampleBlock 0 1 = some sampleBlock ∧
    sampleBlock.merkle_tree = sampleBlock.merkle_tree :=
  ⟨rfl, (mine_frame_invariant hLen sampleBlock sampleBlock 0 1 rfl).2.2.2.2.1⟩

/-- Witness for `verify_never_panics`: a proof whose stored leaf hash does
not match the recomputed digest is rejected. -/
theorem verify_never_panics_witness :
    MerkleProof.verify hLen { proof := [], leaf_hash := [5], root_hash := [5] } [] = false :=
  (verify_never_panics hLen { proof := [], leaf_hash := [5], root_hash := [5] } []).2
    (by decide)

/-- Witness for `generate_proof_unimplemented` at index 1 of a 4-leaf tree. -/
theorem generate_proof_unimplemented_witness :
    (MerkleTree.new hLen [[1], [2], [3], [4]] >>= fun t => t.generate_proof 1) =
      .error .todoUnimplemented :=
  (generate_proof_unimplemented hLen [[1], [2], [3], [4]] 1 (by decide) (by decide)).1
